import Mathlib

/-!
# Verification of the slacker message-pipeline core

Shallow embedding of the algorithmic core of the `slacker` repository
(`src/ai_analyzer.py`, `src/slack_search.py`, `src/slack_injury_search.py`):
the multi-strategy JSON response extractor, the batched classification loop,
the time/thread clusterers, context gathering, the overlap-deduplication
fixpoint, and the per-unit LM-call orchestration with fallback records.

Modelling conventions:
* Python floats (message timestamps, gap widths, overlap thresholds) are
  modelled as exact rationals `ℚ`.  None of the verified properties depends
  on binary rounding.
* Python's `sorted(xs, key=k)` is the stable sort by `k`; it is embedded as
  `List.insertionSort` with the key order (extensionally the stable sort).
* Batteries marks `Rat.add/sub/mul/inv` `@[irreducible]`, which blocks kernel
  evaluation, so arithmetic inside executable definitions uses the helpers
  `qmul`/`qsub`/`qdiv` below, proved equal to `*`/`-`/`/` on `ℚ`.
* Fallible Python code (`raise`) is modelled with `Option`/`Except`; callers'
  `except` clauses become `match` arms.
* All recursions are structural (explicit fuel where Python uses unbounded
  `while` loops), so every definition evaluates by `decide`/`rfl`; for the
  fuelled loops, sufficiency of the supplied fuel is proved
  (`fixGo_fixpoint`), so the embedding computes the same result as the
  unbounded Python loop.
-/

/-- ℚ multiplication, spelled via `mkRat` so the kernel can evaluate it
(Batteries' `Rat.mul` is `@[irreducible]`).  `qmul_eq` proves it is `*`. -/
def qmul (a b : ℚ) : ℚ := mkRat (a.num * b.num) (a.den * b.den)

/-- ℚ subtraction via `mkRat`; `qsub_eq` proves it is `-`. -/
def qsub (a b : ℚ) : ℚ := mkRat (a.num * (b.den : Int) - b.num * (a.den : Int)) (a.den * b.den)

/-- ℚ division via `mkRat`; `qdiv_eq` proves it is `/` (with `x / 0 = 0`). -/
def qdiv (a b : ℚ) : ℚ :=
  if 0 ≤ b.num then mkRat (a.num * (b.den : Int)) (a.den * b.num.toNat)
  else mkRat (-(a.num * (b.den : Int))) (a.den * (-b.num).toNat)

theorem qmul_eq (a b : ℚ) : qmul a b = a * b := by
  have had : (a.den : ℚ) ≠ 0 := Nat.cast_ne_zero.mpr a.den_nz
  have hbd : (b.den : ℚ) ≠ 0 := Nat.cast_ne_zero.mpr b.den_nz
  rw [qmul, Rat.mkRat_eq_div]
  push_cast
  conv_rhs => rw [← Rat.num_div_den a, ← Rat.num_div_den b]
  field_simp

theorem qsub_eq (a b : ℚ) : qsub a b = a - b := by
  have had : (a.den : ℚ) ≠ 0 := Nat.cast_ne_zero.mpr a.den_nz
  have hbd : (b.den : ℚ) ≠ 0 := Nat.cast_ne_zero.mpr b.den_nz
  rw [qsub, Rat.mkRat_eq_div]
  push_cast
  conv_rhs => rw [← Rat.num_div_den a, ← Rat.num_div_den b]
  field_simp
  ring

theorem div_num_den (a b : ℚ) :
    ((a.num : ℚ) * (b.den : ℚ)) / ((a.den : ℚ) * (b.num : ℚ)) = a / b := by
  rcases eq_or_ne b 0 with rfl | hb
  · simp
  · have hbn : (b.num : ℚ) ≠ 0 := by exact_mod_cast Rat.num_ne_zero.mpr hb
    have had : (a.den : ℚ) ≠ 0 := Nat.cast_ne_zero.mpr a.den_nz
    have hbd : (b.den : ℚ) ≠ 0 := Nat.cast_ne_zero.mpr b.den_nz
    conv_rhs => rw [← Rat.num_div_den a, ← Rat.num_div_den b]
    field_simp

theorem qdiv_eq (a b : ℚ) : qdiv a b = a / b := by
  rcases le_or_lt 0 b.num with h | h
  · have hc : ((b.num.toNat : ℕ) : ℚ) = ((b.num : ℤ) : ℚ) := by
      rw [← Int.cast_natCast, Int.toNat_of_nonneg h]
    rw [qdiv, if_pos h, Rat.mkRat_eq_div, ← div_num_den a b]
    push_cast
    rw [hc]
  · have hc : (((-b.num).toNat : ℕ) : ℚ) = ((-b.num : ℤ) : ℚ) := by
      rw [← Int.cast_natCast, Int.toNat_of_nonneg (by omega : (0:Int) ≤ -b.num)]
    rw [qdiv, if_neg (not_le.mpr h), Rat.mkRat_eq_div, ← div_num_den a b]
    push_cast
    rw [hc]
    push_cast
    rw [show ((a.den : ℚ) * -(b.num : ℚ)) = -((a.den : ℚ) * (b.num : ℚ)) by ring,
      neg_div_neg_eq]

/-- Lexicographic `≤` on character lists by code point: the comparison Python
uses for `str` values (here: the `"YYYY-MM-DD"` date keys). -/
def lexLe : List Char → List Char → Bool
  | [], _ => true
  | _ :: _, [] => false
  | a :: as, b :: bs =>
    if a.toNat < b.toNat then true
    else if b.toNat < a.toNat then false
    else lexLe as bs

theorem lexLe_total : ∀ a b, lexLe a b = true ∨ lexLe b a = true := by
  intro a
  induction a with
  | nil => intro b; left; rfl
  | cons x xs ih =>
    intro b
    cases b with
    | nil => right; rfl
    | cons y ys =>
      by_cases h1 : x.toNat < y.toNat
      · left; simp [lexLe, h1]
      · by_cases h2 : y.toNat < x.toNat
        · right; simp [lexLe, h1, h2]
        · rcases ih ys with h | h
          · left; simp [lexLe, h1, h2, h]
          · right; simp [lexLe, h1, h2, h]

theorem lexLe_trans : ∀ a b c, lexLe a b = true → lexLe b c = true → lexLe a c = true := by
  intro a
  induction a with
  | nil => intro b c _ _; rfl
  | cons x xs ih =>
    intro b c hab hbc
    cases b with
    | nil => simp [lexLe] at hab
    | cons y ys =>
      cases c with
      | nil => simp [lexLe] at hbc
      | cons z zs =>
        by_cases hxy : x.toNat < y.toNat
        · by_cases hyz : y.toNat < z.toNat
          · simp [lexLe, show x.toNat < z.toNat by omega]
          · by_cases hzy : z.toNat < y.toNat
            · simp [lexLe, hyz, hzy] at hbc
            · simp [lexLe, show x.toNat < z.toNat by omega]
        · by_cases hyx : y.toNat < x.toNat
          · simp [lexLe, hxy, hyx] at hab
          · simp only [lexLe, if_neg hxy, if_neg hyx] at hab
            by_cases hyz : y.toNat < z.toNat
            · simp [lexLe, show x.toNat < z.toNat by omega]
            · by_cases hzy : z.toNat < y.toNat
              · simp [lexLe, hyz, hzy] at hbc
              · simp only [lexLe, if_neg hyz, if_neg hzy] at hbc
                simp only [lexLe, if_neg (show ¬ x.toNat < z.toNat by omega),
                  if_neg (show ¬ z.toNat < x.toNat by omega)]
                exact ih ys zs hab hbc

/-- Python string `≤` (lexicographic by code point). -/
def strLe (a b : String) : Bool := lexLe a.toList b.toList

theorem strLe_total (a b : String) : strLe a b = true ∨ strLe b a = true :=
  lexLe_total _ _

theorem strLe_trans {a b c : String} (h1 : strLe a b = true) (h2 : strLe b c = true) :
    strLe a c = true :=
  lexLe_trans _ _ _ h1 h2

/-! ## JSON values

Python's `json` module distinguishes `int` from `float` (`isinstance(x, int)`
is checked by the classification loop), so the AST keeps both. -/

inductive Json : Type where
  | null : Json
  | bool (b : Bool) : Json
  | int (n : Int) : Json
  | flt (q : ℚ) : Json
  | str (s : String) : Json
  | arr (xs : List Json) : Json
  | obj (kvs : List (String × Json)) : Json
deriving Repr

/-- Key lookup in a parsed JSON object, as Python `dict` lookup. -/
def jlookup (k : String) : List (String × Json) → Option Json
  | [] => none
  | (k', v) :: rest => if k' = k then some v else jlookup k rest

/-- `d[k] = v` on a Python dict: overwrite in place if the key exists
(keeping its position), otherwise append. -/
def jinsert (k : String) (v : Json) : List (String × Json) → List (String × Json)
  | [] => [(k, v)]
  | (k', v') :: rest => if k' = k then (k, v) :: rest else (k', v') :: jinsert k v rest

/-! ## JSON parser (model of `json.loads`)

A recursive-descent parser for the JSON grammar, operating on `List Char`
with explicit fuel (`2 * length + 16` is ample: every parsing step consumes
input or fails).  `json.loads` is standard-library code external to the
repository; this models it at the fidelity the claims need: values parse to
the AST above, trailing non-whitespace is rejected ("Extra data"), raw
control characters and `\u` escapes are rejected conservatively. -/

def jsonWs (c : Char) : Bool := c = ' ' ∨ c = '\t' ∨ c = '\n' ∨ c = '\r'

def skipWs : List Char → List Char
  | [] => []
  | c :: cs => if jsonWs c then skipWs cs else c :: cs

def isDigit (c : Char) : Bool := '0'.toNat ≤ c.toNat ∧ c.toNat ≤ '9'.toNat

def digitVal (c : Char) : Nat := c.toNat - '0'.toNat

/-- Consume a run of digits, returning their value, count, and the rest. -/
def takeDigits : List Char → Nat → Nat → Nat × Nat × List Char
  | [], acc, cnt => (acc, cnt, [])
  | c :: cs, acc, cnt =>
    if isDigit c then takeDigits cs (acc * 10 + digitVal c) (cnt + 1)
    else (acc, cnt, c :: cs)

/-- Parse a JSON string body (after the opening quote). -/
def parseStrBody : List Char → Option (String × List Char)
  | [] => none
  | c :: cs =>
    if c = '"' then some ("", cs)
    else if c = '\\' then
      match cs with
      | [] => none
      | e :: cs' =>
        let esc : Option Char :=
          if e = '"' then some '"'
          else if e = '\\' then some '\\'
          else if e = '/' then some '/'
          else if e = 'b' then some (Char.ofNat 8)
          else if e = 'f' then some (Char.ofNat 12)
          else if e = 'n' then some '\n'
          else if e = 'r' then some '\r'
          else if e = 't' then some '\t'
          else none
        match esc with
        | none => none
        | some ch =>
          match parseStrBody cs' with
          | none => none
          | some (s, rest) => some (⟨ch :: s.toList⟩, rest)
    else if c.toNat < 32 then none
    else
      match parseStrBody cs with
      | none => none
      | some (s, rest) => some (⟨c :: s.toList⟩, rest)

/-- Parse a JSON number starting at the current position.  Integer literals
become `Json.int`; literals with a fraction or exponent become `Json.flt`. -/
def parseNum (cs : List Char) : Option (Json × List Char) :=
  let (neg, cs1) :=
    match cs with
    | '-' :: rest => (true, rest)
    | _ => (false, cs)
  match cs1 with
  | [] => none
  | c :: _ =>
    if ¬ isDigit c then none
    else
      let (ip, cs2) :=
        match cs1 with
        | '0' :: rest => ((0 : Nat), rest)
        | _ => (let t := takeDigits cs1 0 0; (t.1, t.2.2))
      let (fr, frCnt, cs3) :=
        match cs2 with
        | '.' :: rest =>
          let t := takeDigits rest 0 0
          (t.1, t.2.1, t.2.2)
        | _ => ((0 : Nat), (0 : Nat), cs2)
      let fracBad : Bool :=
        match cs2 with
        | '.' :: rest =>
          match rest with
          | [] => true
          | d :: _ => ¬ isDigit d
        | _ => false
      let (hasExp, expNeg, ev, expBad, cs4) :=
        match cs3 with
        | 'e' :: rest => parseNumExp rest
        | 'E' :: rest => parseNumExp rest
        | _ => (false, false, (0 : Nat), false, cs3)
      if fracBad ∨ expBad then none
      else
        let mantissa : Int :=
          let m : Nat := ip * 10 ^ frCnt + fr
          if neg then -(m : Int) else (m : Int)
        if frCnt = 0 ∧ ¬ hasExp then some (.int mantissa, cs3)
        else
          let e : Int := (if expNeg then -(ev : Int) else (ev : Int)) - (frCnt : Int)
          if 0 ≤ e then some (.flt (mkRat (mantissa * (10 ^ e.toNat : Nat)) 1), cs4)
          else some (.flt (mkRat mantissa (10 ^ (-e).toNat)), cs4)
where
  parseNumExp (rest : List Char) : Bool × Bool × Nat × Bool × List Char :=
    let (sgn, rest1) :=
      match rest with
      | '+' :: r => (false, r)
      | '-' :: r => (true, r)
      | _ => (false, rest)
    match rest1 with
    | [] => (true, sgn, 0, true, rest1)
    | d :: _ =>
      if isDigit d then
        let t := takeDigits rest1 0 0
        (true, sgn, t.1, false, t.2.2)
      else (true, sgn, 0, true, rest1)

mutual

/-- Parse one JSON value (fuel-indexed recursive descent). -/
def parseVal : Nat → List Char → Option (Json × List Char)
  | 0, _ => none
  | fuel + 1, cs =>
    match skipWs cs with
    | [] => none
    | c :: rest =>
      if c = '{' then
        match skipWs rest with
        | '}' :: rest' => some (.obj [], rest')
        | _ => parseObjItems fuel rest []
      else if c = '[' then
        match skipWs rest with
        | ']' :: rest' => some (.arr [], rest')
        | _ => parseArrItems fuel rest []
      else if c = '"' then
        match parseStrBody rest with
        | none => none
        | some (s, rest') => some (.str s, rest')
      else if c = 't' then
        match rest with
        | 'r' :: 'u' :: 'e' :: rest' => some (.bool true, rest')
        | _ => none
      else if c = 'f' then
        match rest with
        | 'a' :: 'l' :: 's' :: 'e' :: rest' => some (.bool false, rest')
        | _ => none
      else if c = 'n' then
        match rest with
        | 'u' :: 'l' :: 'l' :: rest' => some (.null, rest')
        | _ => none
      else parseNum (c :: rest)

/-- Parse the elements of a JSON array (after `[`, first element pending). -/
def parseArrItems : Nat → List Char → List Json → Option (Json × List Char)
  | 0, _, _ => none
  | fuel + 1, cs, acc =>
    match parseVal fuel cs with
    | none => none
    | some (v, rest) =>
      match skipWs rest with
      | ',' :: rest' => parseArrItems fuel rest' (acc ++ [v])
      | ']' :: rest' => some (.arr (acc ++ [v]), rest')
      | _ => none

/-- Parse the members of a JSON object (after `{`, first member pending). -/
def parseObjItems : Nat → List Char → List (String × Json) →
    Option (Json × List Char)
  | 0, _, _ => none
  | fuel + 1, cs, acc =>
    match skipWs cs with
    | '"' :: rest =>
      match parseStrBody rest with
      | none => none
      | some (k, rest1) =>
        match skipWs rest1 with
        | ':' :: rest2 =>
          match parseVal fuel rest2 with
          | none => none
          | some (v, rest3) =>
            match skipWs rest3 with
            | ',' :: rest4 => parseObjItems fuel rest4 (jinsert k v acc)
            | '}' :: rest4 => some (.obj (jinsert k v acc), rest4)
            | _ => none
        | _ => none
    | _ => none

end

/-- `json.loads` on a character list: parse one value, then require only
whitespace to remain ("Extra data" otherwise). -/
def jloadsChars (cs : List Char) : Option Json :=
  match parseVal (2 * cs.length + 16) cs with
  | none => none
  | some (v, rest) => if skipWs rest = [] then some v else none

/-- `json.loads` on a string. -/
def jloads (s : String) : Option Json := jloadsChars s.toList

/-! ## `_extract_json` (src/ai_analyzer.py lines 16-58)

Multi-strategy JSON recovery from an LM text response.  `none` models the
final `raise json.JSONDecodeError`. -/

/-- Python `str.strip()`: trim whitespace from both ends. -/
def pyStrip (cs : List Char) : List Char :=
  ((skipWs cs.reverse).reverse : List Char) |> skipWs

/-- Leftmost index at which `needle` occurs in `hay` (`str.find`), if any. -/
def findSub (needle : List Char) : List Char → Option Nat
  | [] => if needle = [] then some 0 else none
  | c :: cs =>
    if needle.isPrefixOf (c :: cs) then some 0
    else match findSub needle cs with
      | some i => some (i + 1)
      | none => none

/-- Everything up to (excluding) the first occurrence of `needle`, if it
occurs. -/
def takeUntilSub (needle : List Char) : List Char → Option (List Char)
  | [] => if needle = [] then some [] else none
  | c :: cs =>
    if needle.isPrefixOf (c :: cs) then some []
    else match takeUntilSub needle cs with
      | some pre => some (c :: pre)
      | none => none

/-- Strategy 2: the regex search
`re.search(r"s1(?:json)?\s*\n?(.*?)s1", text, re.DOTALL)` (with `s1` the
triple backtick), then `json.loads(match.group(1).strip())`.  Operationally:
take the text after the first fence, drop an optional `json` tag and the
following whitespace run, and parse what precedes the next fence. -/
def fencedStrategy (cs : List Char) : Option Json :=
  match findSub ['`', '`', '`'] cs with
  | none => none
  | some i =>
    let after := (cs.drop (i + 3) : List Char)
    let after := if ['j', 's', 'o', 'n'].isPrefixOf after then after.drop 4 else after
    let after := skipWs after
    match takeUntilSub ['`', '`', '`'] after with
    | none => none
    | some content => jloadsChars (pyStrip content)

/-- The bracket-depth walk of strategy 3: starting from the first `openCh`,
find the position where the depth (counting only `openCh`/`closeCh`) first
returns to zero. -/
def depthWalk (openCh closeCh : Char) : List Char → Nat → Nat → Option Nat
  | [], _, _ => none
  | c :: cs, depth, pos =>
    if c = openCh then depthWalk openCh closeCh cs (depth + 1) (pos + 1)
    else if c = closeCh then
      if depth = 1 then some pos
      else depthWalk openCh closeCh cs (depth - 1) (pos + 1)
    else depthWalk openCh closeCh cs depth (pos + 1)

/-- Strategy 3 for one bracket pair: find the first `openCh`, walk to the
matching close, and parse that slice; a parse failure abandons this pair
(the Python `break`). -/
def bracketStrategy (openCh closeCh : Char) (cs : List Char) : Option Json :=
  match findSub [openCh] cs with
  | none => none
  | some start =>
    let tail := cs.drop start
    match depthWalk openCh closeCh tail 0 0 with
    | none => none
    | some endPos => jloadsChars (tail.take (endPos + 1))

/-- `_extract_json`: direct parse, then fenced code block, then first
balanced `[...]`, then first balanced `\x7b...\x7d`; `none` = `raise`. -/
def extractJson (text : String) : Option Json :=
  let cs := pyStrip text.toList
  match jloadsChars cs with
  | some v => some v
  | none =>
    match (if (findSub ['`', '`', '`'] cs).isSome then fencedStrategy cs else none) with
    | some v => some v
    | none =>
      match bracketStrategy '[' ']' cs with
      | some v => some v
      | none => bracketStrategy '{' '}' cs

/-! ## Messages

A Slack message as the pipeline uses it: only the fields the core reads.
Timestamps (`float(m.get("ts", 0))`) are exact rationals. -/

structure Msg where
  ts : ℚ
  text : String := ""
  user : String := ""
  thread_ts : Option String := none
deriving DecidableEq, Repr

/-- The sort key order of `sorted(messages, key=lambda m: float(m.get("ts", 0)))`. -/
def tsLe (a b : Msg) : Prop := a.ts ≤ b.ts

instance : DecidableRel tsLe := fun a b => inferInstanceAs (Decidable (a.ts ≤ b.ts))

instance : IsTotal Msg tsLe := ⟨fun a b => le_total a.ts b.ts⟩

instance : IsTrans Msg tsLe := ⟨fun _ _ _ h1 h2 => le_trans h1 h2⟩

/-- Python's stable `sorted` by timestamp. -/
def sortByTs (ms : List Msg) : List Msg := List.insertionSort tsLe ms

/-! ## Time clustering (src/slack_search.py lines 67-91; identical first pass
in src/slack_injury_search.py lines 15-38) -/

/-- The clustering walk: `clusters[-1]` is `cur ++ [prev]` (`prev` is the
last message appended); each new message joins it when within the gap,
otherwise starts a new cluster. -/
def clusterGo (gapS : ℚ) (done : List (List Msg)) (cur : List Msg) (prev : Msg) :
    List Msg → List (List Msg)
  | [] => done ++ [cur ++ [prev]]
  | m :: rest =>
    if qsub m.ts prev.ts ≤ gapS then clusterGo gapS done (cur ++ [prev]) m rest
    else clusterGo gapS (done ++ [cur ++ [prev]]) [] m rest

/-- `cluster_messages` (time-gap variant, src/slack_search.py): sort by
timestamp, then split where the gap to the previous message exceeds
`gap_hours * 3600` seconds. -/
def cluster_messages (messages : List Msg) (gap_hours : ℚ) : List (List Msg) :=
  match List.insertionSort tsLe messages with
  | [] => []
  | m0 :: rest => clusterGo (qmul gap_hours 3600) [] [] m0 rest

/-! ## The merge-scan fixpoint (`while merged:` loops)

Both `dedup_by_context_overlap` and the thread-merge pass of
`slack_injury_search.cluster_messages` run the same loop shape: repeatedly
scan ordered pairs `(i, j)`, `i < j`, merging `j` into `i` (the receiver
accumulating while its own scan continues), until a full pass merges
nothing.  `absorbBy` is one receiver's inner `j` scan, `passGo` one full
pass (fuelled: the recursion is on the unabsorbed remainder, which only
shrinks), `fixGo` the outer loop (fuelled: every merging pass strictly
shrinks the list, so `length + 1` passes suffice — `fixGo_fixpoint`). -/

def absorbBy (cond : α → α → Bool) (mrg : α → α → α) : α → List α → α × List α × Bool
  | a, [] => (a, [], false)
  | a, b :: l =>
    if cond a b then
      let r := absorbBy cond mrg (mrg a b) l
      (r.1, r.2.1, true)
    else
      let r := absorbBy cond mrg a l
      (r.1, b :: r.2.1, r.2.2)

def passGo (cond : α → α → Bool) (mrg : α → α → α) : Nat → List α → List α × Bool
  | _, [] => ([], false)
  | 0, l => (l, false)
  | fuel + 1, a :: l =>
    let r := absorbBy cond mrg a l
    let s := passGo cond mrg fuel r.2.1
    (r.1 :: s.1, r.2.2 || s.2)

/-- One full pass over all pairs (`for i ... for j in range(i+1, ...)`). -/
def onePass (cond : α → α → Bool) (mrg : α → α → α) (l : List α) : List α × Bool :=
  passGo cond mrg l.length l

def fixGo (cond : α → α → Bool) (mrg : α → α → α) : Nat → List α → List α
  | 0, l => l
  | fuel + 1, l =>
    match onePass cond mrg l with
    | (l', true) => fixGo cond mrg fuel l'
    | (l', false) => l'

/-- The `merged = True; while merged:` fixpoint loop. -/
def fixBy (cond : α → α → Bool) (mrg : α → α → α) (l : List α) : List α :=
  fixGo cond mrg (l.length + 1) l

/-! ## Thread-merge clustering (src/slack_injury_search.py lines 15-63) -/

/-- `{m.get("thread_ts") for m in cluster if m.get("thread_ts")}` (falsy
filters out both `None` and the empty string). -/
def threadsOf (c : List Msg) : Finset String :=
  ((c.filterMap Msg.thread_ts).filter (fun s => s ≠ "")).toFinset

/-- `threads_a & threads_b` nonempty. -/
def threadCond (a b : List Msg) : Bool := decide (threadsOf a ∩ threadsOf b).Nonempty

/-- `cluster_messages` (thread-merge variant, src/slack_injury_search.py):
the same first time-gap pass, then the fixpoint merge of clusters sharing a
`thread_ts`, then a per-cluster re-sort. -/
def cluster_messages_threaded (messages : List Msg) (gap_hours : ℚ) : List (List Msg) :=
  (fixBy threadCond (· ++ ·) (cluster_messages messages gap_hours)).map
    (List.insertionSort tsLe)

/-! ## Context gathering (src/slack_search.py lines 94-119) -/

/-- `gather_context`: locate the cluster's timestamps in the full channel
list and slice a window around them; fall back to the cluster itself when
nothing is found. -/
def gather_context (cluster : List Msg) (all_messages : List Msg) (window : Nat) :
    List Msg :=
  if all_messages = [] ∨ cluster = [] then cluster
  else
    let cluster_ts := cluster.map Msg.ts
    let indices := (all_messages.enum.filter (fun p => p.2.ts ∈ cluster_ts)).map Prod.fst
    if indices = [] then cluster
    else
      let lo := (indices.min?).getD 0
      let hi := (indices.max?).getD 0
      let first_idx := lo - window
      let last_idx := min all_messages.length (hi + window + 1)
      (all_messages.drop first_idx).take (last_idx - first_idx)

/-- The context-assembly tail of `slack_injury_search.main` (lines 211-231):
`all_context` is a ts-keyed dict filled from the surrounding/thread fetches
(modelled by their concatenated results), sorted chronologically; an empty
result falls back to the cluster itself. -/
def upsertTs (acc : List Msg) (m : Msg) : List Msg :=
  match acc with
  | [] => [m]
  | x :: xs => if x.ts = m.ts then m :: xs else x :: upsertTs xs m

/-- `{m["ts"]: m for m in ms}.values()`: first-occurrence order, last value
wins. -/
def tsDictValues (ms : List Msg) : List Msg := ms.foldl upsertTs []

def assemble_context (cluster : List Msg) (fetched : List Msg) : List Msg :=
  let context_messages := sortByTs (tsDictValues fetched)
  if context_messages = [] then cluster else context_messages

/-! ## Overlap deduplication (src/slack_search.py lines 122-163;
src/slack_injury_search.py lines 66-114 is the same function with the
`participants` key named `user_ids`) -/

/-- A context unit (KB mode) / incident (report mode): a cluster plus its
gathered context and derived metadata. -/
structure CUnit where
  cluster : List Msg := []
  context_messages : List Msg := []
  context_ts_set : Finset ℚ := ∅
  participants : Finset String := ∅
  first_ts : ℚ := 0
  date : String := ""
  channel_name : String := ""
deriving DecidableEq

/-- `x["date"]` sort order (Python compares the `"YYYY-MM-DD"` strings
lexicographically). -/
def dateRel (a b : CUnit) : Prop := strLe a.date b.date = true

instance : DecidableRel dateRel := fun a b =>
  inferInstanceAs (Decidable (strLe a.date b.date = true))

instance : IsTotal CUnit dateRel := ⟨fun a b => strLe_total a.date b.date⟩

instance : IsTrans CUnit dateRel := ⟨fun _ _ _ => strLe_trans⟩

/-- Merging unit `b` into receiver `a`: union the ts sets and participant
sets, combine the context messages deduplicated by ts and re-sorted. -/
def mergeUnits (a b : CUnit) : CUnit :=
  { a with
    context_ts_set := a.context_ts_set ∪ b.context_ts_set
    context_messages := sortByTs (tsDictValues (a.context_messages ++ b.context_messages))
    participants := a.participants ∪ b.participants }

/-- `smaller > 0 and len(intersection) / smaller >= overlap_threshold`. -/
def overlapCond (thr : ℚ) (a b : CUnit) : Bool :=
  let inter := a.context_ts_set ∩ b.context_ts_set
  let smaller := min a.context_ts_set.card b.context_ts_set.card
  decide (0 < smaller) && decide (thr ≤ qdiv (inter.card : ℚ) (smaller : ℚ))

/-- `dedup_by_context_overlap`. -/
def dedup_by_context_overlap (units : List CUnit) (overlap_threshold : ℚ) :
    List CUnit :=
  if units.length ≤ 1 then units
  else fixBy (overlapCond overlap_threshold) mergeUnits (List.insertionSort dateRel units)

/-! ## Properties of the merge-scan machinery -/

theorem absorbBy_rest_length (cond : α → α → Bool) (mrg : α → α → α) (a : α) (l : List α) :
    (absorbBy cond mrg a l).2.1.length ≤ l.length := by
  induction l generalizing a with
  | nil => simp [absorbBy]
  | cons b l ih =>
    simp only [absorbBy]
    by_cases h : cond a b
    · simp only [if_pos h]
      exact le_trans (ih (mrg a b)) (Nat.le_succ _)
    · simp only [if_neg h, List.length_cons]
      exact Nat.succ_le_succ (ih a)

theorem absorbBy_true_length (cond : α → α → Bool) (mrg : α → α → α) (a : α) (l : List α)
    (h : (absorbBy cond mrg a l).2.2 = true) :
    (absorbBy cond mrg a l).2.1.length < l.length := by
  induction l generalizing a with
  | nil => simp [absorbBy] at h
  | cons b l ih =>
    simp only [absorbBy] at h ⊢
    by_cases hc : cond a b
    · simp only [if_pos hc]
      exact Nat.lt_succ_of_le (absorbBy_rest_length cond mrg (mrg a b) l)
    · simp only [if_neg hc] at h ⊢
      simpa using ih a h

theorem absorbBy_false (cond : α → α → Bool) (mrg : α → α → α) (a : α) (l : List α)
    (h : (absorbBy cond mrg a l).2.2 = false) :
    (absorbBy cond mrg a l).1 = a ∧ (absorbBy cond mrg a l).2.1 = l := by
  induction l generalizing a with
  | nil => simp [absorbBy]
  | cons b l ih =>
    simp only [absorbBy] at h ⊢
    by_cases hc : cond a b
    · simp [if_pos hc] at h
    · simp only [if_neg hc] at h ⊢
      obtain ⟨h1, h2⟩ := ih a h
      exact ⟨h1, by rw [h2]⟩

theorem passGo_length (cond : α → α → Bool) (mrg : α → α → α) (fuel : Nat) (l : List α) :
    (passGo cond mrg fuel l).1.length ≤ l.length := by
  induction fuel generalizing l with
  | zero => cases l <;> simp [passGo]
  | succ fuel ih =>
    cases l with
    | nil => simp [passGo]
    | cons a l =>
      simp only [passGo, List.length_cons]
      have h1 := absorbBy_rest_length cond mrg a l
      have h2 := ih (absorbBy cond mrg a l).2.1
      omega

theorem passGo_true_length (cond : α → α → Bool) (mrg : α → α → α) (fuel : Nat)
    (l : List α) (h : l.length ≤ fuel) (ht : (passGo cond mrg fuel l).2 = true) :
    (passGo cond mrg fuel l).1.length < l.length := by
  induction fuel generalizing l with
  | zero =>
    cases l with
    | nil => simp [passGo] at ht
    | cons a l => simp at h
  | succ fuel ih =>
    cases l with
    | nil => simp [passGo] at ht
    | cons a l =>
      simp only [passGo] at ht ⊢
      rcases (Bool.or_eq_true _ _).mp ht with hr | hs
      · have h1 := absorbBy_true_length cond mrg a l hr
        have h2 := passGo_length cond mrg fuel (absorbBy cond mrg a l).2.1
        simp only [List.length_cons]
        omega
      · rcases Bool.eq_false_or_eq_true (absorbBy cond mrg a l).2.2 with htr | hf
        · have h1 := absorbBy_true_length cond mrg a l htr
          have h2 := passGo_length cond mrg fuel (absorbBy cond mrg a l).2.1
          simp only [List.length_cons]
          omega
        · obtain ⟨_, h2⟩ := absorbBy_false cond mrg a l hf
          have h3 := ih (absorbBy cond mrg a l).2.1 (by rw [h2]; simpa using h) hs
          have h4 : (absorbBy cond mrg a l).2.1.length = l.length := by rw [h2]
          simp only [List.length_cons]
          omega

theorem passGo_false (cond : α → α → Bool) (mrg : α → α → α) (fuel : Nat)
    (l : List α) (h : l.length ≤ fuel) (hf : (passGo cond mrg fuel l).2 = false) :
    (passGo cond mrg fuel l).1 = l := by
  induction fuel generalizing l with
  | zero =>
    cases l with
    | nil => simp [passGo]
    | cons a l => simp at h
  | succ fuel ih =>
    cases l with
    | nil => simp [passGo]
    | cons a l =>
      simp only [passGo] at hf ⊢
      rcases Bool.or_eq_false_iff.mp hf with ⟨hr, hs⟩
      obtain ⟨h1, h2⟩ := absorbBy_false cond mrg a l hr
      have h3 := ih (absorbBy cond mrg a l).2.1 (by rw [h2]; simpa using h) hs
      rw [h1, h3, h2]

theorem onePass_true_length (cond : α → α → Bool) (mrg : α → α → α) (l : List α)
    (ht : (onePass cond mrg l).2 = true) : (onePass cond mrg l).1.length < l.length :=
  passGo_true_length cond mrg l.length l le_rfl ht

theorem onePass_false (cond : α → α → Bool) (mrg : α → α → α) (l : List α)
    (hf : (onePass cond mrg l).2 = false) : (onePass cond mrg l).1 = l :=
  passGo_false cond mrg l.length l le_rfl hf

theorem fixGo_fixpoint (cond : α → α → Bool) (mrg : α → α → α) (fuel : Nat)
    (l : List α) (h : l.length < fuel) :
    onePass cond mrg (fixGo cond mrg fuel l) = (fixGo cond mrg fuel l, false) := by
  induction fuel generalizing l with
  | zero => omega
  | succ fuel ih =>
    rcases hp : onePass cond mrg l with ⟨l', flag⟩
    cases flag
    · have h1 : (onePass cond mrg l).1 = l := onePass_false cond mrg l (by rw [hp])
      rw [hp] at h1
      have h1' : l' = l := h1
      subst h1'
      simp only [fixGo, hp]
    · have h1 : (onePass cond mrg l).1.length < l.length :=
        onePass_true_length cond mrg l (by rw [hp])
      rw [hp] at h1
      have h1' : l'.length < l.length := h1
      simp only [fixGo, hp]
      exact ih l' (by omega)

theorem fixBy_fixpoint (cond : α → α → Bool) (mrg : α → α → α) (l : List α) :
    onePass cond mrg (fixBy cond mrg l) = (fixBy cond mrg l, false) :=
  fixGo_fixpoint cond mrg (l.length + 1) l (Nat.lt_succ_self _)

theorem fixBy_of_no_merge (cond : α → α → Bool) (mrg : α → α → α) (l : List α)
    (h : onePass cond mrg l = (l, false)) : fixBy cond mrg l = l := by
  simp [fixBy, fixGo, h]

theorem absorbBy_sublist (cond : α → α → Bool) (mrg : α → α → α) (a : α) (l : List α) :
    (absorbBy cond mrg a l).2.1.Sublist l := by
  induction l generalizing a with
  | nil => simp [absorbBy]
  | cons b l ih =>
    simp only [absorbBy]
    by_cases h : cond a b
    · simp only [if_pos h]
      exact (ih (mrg a b)).cons b
    · simp only [if_neg h]
      exact (ih a).cons₂ b

theorem absorbBy_res_rel {R : α → α → Prop} (cond : α → α → Bool) (mrg : α → α → α)
    (hRl : ∀ x y z, R x z → R (mrg x y) z) (a c : α) (l : List α) (hac : R a c) :
    R (absorbBy cond mrg a l).1 c := by
  induction l generalizing a with
  | nil => simpa [absorbBy] using hac
  | cons b l ih =>
    simp only [absorbBy]
    by_cases h : cond a b
    · simp only [if_pos h]
      exact ih (mrg a b) (hRl a b c hac)
    · simp only [if_neg h]
      exact ih a hac

theorem absorbBy_res_dom {R : α → α → Prop} (cond : α → α → Bool) (mrg : α → α → α)
    (hRr : ∀ x y z, R z x → R z (mrg x y)) (z a : α) (l : List α) (hza : R z a) :
    R z (absorbBy cond mrg a l).1 := by
  induction l generalizing a with
  | nil => simpa [absorbBy] using hza
  | cons b l ih =>
    simp only [absorbBy]
    by_cases h : cond a b
    · simp only [if_pos h]
      exact ih (mrg a b) (hRr a b z hza)
    · simp only [if_neg h]
      exact ih a hza

theorem absorbBy_head_rel {R : α → α → Prop} (cond : α → α → Bool) (mrg : α → α → α)
    (hRl : ∀ x y z, R x z → R (mrg x y) z) (a : α) (l : List α)
    (ha : ∀ y ∈ l, R a y) :
    ∀ y ∈ (absorbBy cond mrg a l).2.1, R (absorbBy cond mrg a l).1 y := by
  induction l generalizing a with
  | nil => simp [absorbBy]
  | cons b l ih =>
    simp only [absorbBy]
    by_cases h : cond a b
    · simp only [if_pos h]
      exact ih (mrg a b) fun y hy => hRl a b y (ha y (List.mem_cons_of_mem b hy))
    · simp only [if_neg h]
      intro y hy
      rcases List.mem_cons.mp hy with rfl | hy'
      · exact absorbBy_res_rel cond mrg hRl a y l (ha y (List.mem_cons_self _ _))
      · exact ih a (fun w hw => ha w (List.mem_cons_of_mem b hw)) y hy'

theorem passGo_dom {R : α → α → Prop} (cond : α → α → Bool) (mrg : α → α → α)
    (hRr : ∀ x y z, R z x → R z (mrg x y)) (fuel : Nat) (z : α) (l : List α)
    (hz : ∀ y ∈ l, R z y) : ∀ w ∈ (passGo cond mrg fuel l).1, R z w := by
  induction fuel generalizing l with
  | zero => cases l <;> simpa [passGo] using hz
  | succ fuel ih =>
    cases l with
    | nil => simp [passGo]
    | cons a l =>
      simp only [passGo]
      intro w hw
      rcases List.mem_cons.mp hw with rfl | hw'
      · exact absorbBy_res_dom cond mrg hRr z a l (hz a (List.mem_cons_self _ _))
      · exact ih (absorbBy cond mrg a l).2.1
          (fun y hy => hz y (List.mem_cons_of_mem a ((absorbBy_sublist cond mrg a l).subset hy)))
          w hw'

theorem passGo_pairwise {R : α → α → Prop} (cond : α → α → Bool) (mrg : α → α → α)
    (hRl : ∀ x y z, R x z → R (mrg x y) z) (hRr : ∀ x y z, R z x → R z (mrg x y))
    (fuel : Nat) (l : List α) (hp : l.Pairwise R) :
    (passGo cond mrg fuel l).1.Pairwise R := by
  induction fuel generalizing l with
  | zero => cases l <;> simpa [passGo] using hp
  | succ fuel ih =>
    cases l with
    | nil => simp [passGo]
    | cons a l =>
      rcases List.pairwise_cons.mp hp with ⟨ha, hl⟩
      simp only [passGo]
      refine List.pairwise_cons.mpr ⟨?_, ?_⟩
      · exact passGo_dom cond mrg hRr fuel _ _
          (absorbBy_head_rel cond mrg hRl a l ha)
      · exact ih (absorbBy cond mrg a l).2.1 (hl.sublist (absorbBy_sublist cond mrg a l))

theorem fixGo_pairwise {R : α → α → Prop} (cond : α → α → Bool) (mrg : α → α → α)
    (hRl : ∀ x y z, R x z → R (mrg x y) z) (hRr : ∀ x y z, R z x → R z (mrg x y))
    (fuel : Nat) (l : List α) (hp : l.Pairwise R) :
    (fixGo cond mrg fuel l).Pairwise R := by
  induction fuel generalizing l with
  | zero => simpa [fixGo] using hp
  | succ fuel ih =>
    rcases hp' : onePass cond mrg l with ⟨l', flag⟩
    have hl' : l'.Pairwise R := by
      have h2 : (onePass cond mrg l).1 = l' := by rw [hp']
      rw [← h2]
      exact passGo_pairwise cond mrg hRl hRr l.length l hp
    cases flag
    · simpa only [fixGo, hp'] using hl'
    · simp only [fixGo, hp']
      exact ih l' hl'

/-! ## Properties of the clustering walk -/

theorem clusterGo_join (gapS : ℚ) (done : List (List Msg)) (cur : List Msg) (prev : Msg)
    (l : List Msg) :
    (clusterGo gapS done cur prev l).join = done.join ++ cur ++ prev :: l := by
  induction l generalizing done cur prev with
  | nil => simp [clusterGo]
  | cons m rest ih =>
    simp only [clusterGo]
    by_cases h : qsub m.ts prev.ts ≤ gapS
    · rw [if_pos h, ih]
      simp
    · rw [if_neg h, ih]
      simp

theorem clusterGo_sorted (gapS : ℚ) (done : List (List Msg)) (cur : List Msg) (prev : Msg)
    (l : List Msg) (hdone : ∀ c ∈ done, c.Sorted tsLe)
    (hcur : (cur ++ prev :: l).Sorted tsLe) :
    ∀ c ∈ clusterGo gapS done cur prev l, c.Sorted tsLe := by
  induction l generalizing done cur prev with
  | nil =>
    intro c hc
    simp only [clusterGo, List.mem_append, List.mem_singleton] at hc
    rcases hc with hc | rfl
    · exact hdone c hc
    · exact hcur
  | cons m rest ih =>
    intro c hc
    simp only [clusterGo] at hc
    by_cases h : qsub m.ts prev.ts ≤ gapS
    · rw [if_pos h] at hc
      refine ih done (cur ++ [prev]) m hdone ?_ c hc
      simpa using hcur
    · rw [if_neg h] at hc
      refine ih (done ++ [cur ++ [prev]]) [] m ?_ ?_ c hc
      · intro c' hc'
        rcases List.mem_append.mp hc' with hc' | hc'
        · exact hdone c' hc'
        · rw [List.mem_singleton.mp hc']
          refine hcur.sublist ?_
          exact (List.cons_sublist_cons.mpr (List.nil_sublist _)).append_left cur
      · refine hcur.sublist ?_
        simp only [List.nil_append]
        have h1 : (m :: rest).Sublist ((cur ++ [prev]) ++ m :: rest) :=
          List.sublist_append_right _ _
        simpa [List.append_assoc] using h1

theorem clusterGo_chain (gapS : ℚ) (done : List (List Msg)) (cur : List Msg) (prev : Msg)
    (l : List Msg)
    (hdone : ∀ c ∈ done, c.Chain' (fun a b => b.ts - a.ts ≤ gapS))
    (hcur : (cur ++ [prev]).Chain' (fun a b => b.ts - a.ts ≤ gapS)) :
    ∀ c ∈ clusterGo gapS done cur prev l, c.Chain' (fun a b => b.ts - a.ts ≤ gapS) := by
  induction l generalizing done cur prev with
  | nil =>
    intro c hc
    simp only [clusterGo, List.mem_append, List.mem_singleton] at hc
    rcases hc with hc | rfl
    · exact hdone c hc
    · exact hcur
  | cons m rest ih =>
    intro c hc
    simp only [clusterGo] at hc
    by_cases h : qsub m.ts prev.ts ≤ gapS
    · rw [if_pos h] at hc
      refine ih done (cur ++ [prev]) m hdone ?_ c hc
      rw [List.chain'_append]
      refine ⟨hcur, List.chain'_singleton m, ?_⟩
      intro x hx y hy
      rw [List.getLast?_concat] at hx
      simp only [List.head?_cons, Option.mem_def, Option.some.injEq] at hx hy
      rw [← hx, ← hy]
      rw [qsub_eq] at h
      exact h
    · rw [if_neg h] at hc
      refine ih (done ++ [cur ++ [prev]]) [] m ?_ (by simp) c hc
      intro c' hc'
      rcases List.mem_append.mp hc' with hc' | hc'
      · exact hdone c' hc'
      · rw [List.mem_singleton.mp hc']
        exact hcur

/-! ## Multiset preservation through the thread-merge pass -/

/-- The multiset of all messages in a cluster list. -/
def msumOf (l : List (List β)) : Multiset β := (l.map Multiset.ofList).sum

theorem msumOf_eq_join (l : List (List β)) : msumOf l = Multiset.ofList l.join := by
  induction l with
  | nil => simp [msumOf]
  | cons c t ih =>
    simp only [msumOf, List.map_cons, List.sum_cons, List.join_cons] at ih ⊢
    rw [ih]
    rfl

theorem absorbBy_append_msum (cond : List β → List β → Bool) (a : List β)
    (l : List (List β)) :
    Multiset.ofList (absorbBy cond (· ++ ·) a l).1 + msumOf (absorbBy cond (· ++ ·) a l).2.1
      = Multiset.ofList a + msumOf l := by
  induction l generalizing a with
  | nil => simp [absorbBy]
  | cons b t ih =>
    simp only [absorbBy]
    by_cases h : cond a b
    · simp only [if_pos h]
      rw [ih (a ++ b)]
      simp only [msumOf, List.map_cons, List.sum_cons]
      rw [show Multiset.ofList (a ++ b) = Multiset.ofList a + Multiset.ofList b from rfl]
      exact add_assoc _ _ _
    · simp only [if_neg h]
      simp only [msumOf, List.map_cons, List.sum_cons] at ih ⊢
      rw [add_left_comm, ih a, add_left_comm]

theorem passGo_append_msum (cond : List β → List β → Bool) (fuel : Nat)
    (l : List (List β)) : msumOf (passGo cond (· ++ ·) fuel l).1 = msumOf l := by
  induction fuel generalizing l with
  | zero => cases l <;> simp [passGo]
  | succ fuel ih =>
    cases l with
    | nil => simp [passGo]
    | cons a t =>
      simp only [passGo, msumOf, List.map_cons, List.sum_cons]
      have h1 := ih (absorbBy cond (· ++ ·) a t).2.1
      simp only [msumOf] at h1
      rw [h1]
      have h2 := absorbBy_append_msum cond a t
      simp only [msumOf] at h2
      rw [h2]

theorem fixGo_append_msum (cond : List β → List β → Bool) (fuel : Nat)
    (l : List (List β)) : msumOf (fixGo cond (· ++ ·) fuel l) = msumOf l := by
  induction fuel generalizing l with
  | zero => simp [fixGo]
  | succ fuel ih =>
    rcases hp : onePass cond (· ++ ·) l with ⟨l', flag⟩
    have h1 : msumOf l' = msumOf l := by
      have := passGo_append_msum cond l.length l
      rw [show (passGo cond (· ++ ·) l.length l).1 = l' by rw [show passGo cond (· ++ ·) l.length l = onePass cond (· ++ ·) l from rfl, hp]] at this
      exact this
    cases flag
    · simpa only [fixGo, hp] using h1
    · simp only [fixGo, hp]
      rw [ih l', h1]

theorem fixBy_join_perm (cond : List β → List β → Bool) (l : List (List β)) :
    (fixBy cond (· ++ ·) l).join.Perm l.join := by
  have h := fixGo_append_msum cond (l.length + 1) l
  rw [msumOf_eq_join, msumOf_eq_join] at h
  exact Multiset.coe_eq_coe.mp h

theorem join_map_perm (f : List β → List β) (hf : ∀ c, (f c).Perm c)
    (l : List (List β)) : ((l.map f).join).Perm l.join := by
  induction l with
  | nil => simp
  | cons c t ih =>
    simp only [List.map_cons, List.join_cons]
    exact (hf c).append ih

/-! ## Classification (src/ai_analyzer.py lines 418-455)

`_classify_batch` copies message dicts and adds a key, so the frame claim
("the input dicts are not mutated") is made statable with a small heap
model: dicts live in a heap (a list of dicts), an address is an index, and
`.copy()` allocates by appending.  Python mutation of an existing cell would
show up as a change below the original heap length. -/

abbrev PyDict := List (String × Json)

abbrev Heap := List PyDict

/-- Index/reason selection per parsed item: bare `int` — and `bool`, which
`isinstance(item, int)` accepts — with empty reason; dicts via
`item.get("index", -1)` / `item.get("reason", "")`; anything else is
`continue`-skipped. -/
def itemIdx : Json → Option (Json × Json)
  | .int n => some (.int n, .str "")
  | .bool b => some (.bool b, .str "")
  | .obj kvs =>
    some ((jlookup "index" kvs).getD (.int (-1)), (jlookup "reason" kvs).getD (.str ""))
  | _ => none

/-- `0 <= idx < len(messages)`: numeric values compare, anything else is a
`TypeError` (reaching the handler). -/
def idxInRange (idx : Json) (n : Nat) : Except Unit Bool :=
  match idx with
  | .int v => .ok (decide (0 ≤ v ∧ v < (n : Int)))
  | .flt q => .ok (decide (0 ≤ q ∧ q < (n : ℚ)))
  | .bool b => .ok (decide ((if b then (1 : Nat) else 0) < n))
  | _ => .error ()

/-- `messages[idx]`: ints and bools index a list, floats are a `TypeError`. -/
def idxToNat (idx : Json) : Except Unit Nat :=
  match idx with
  | .int v => .ok v.toNat
  | .bool b => .ok (if b then 1 else 0)
  | _ => .error ()

/-- The result loop of `_classify_batch`, heap-passing: skip unusable items,
drop out-of-range indices, and for each hit allocate
`messages[idx].copy()` with `relevance_reason` set.  The second component is
`none` when a `TypeError` escaped to the handler. -/
def classifyLoop (batch : List Nat) : Heap → List Json → Heap × Option (List Nat)
  | heap, [] => (heap, some [])
  | heap, item :: rest =>
    match itemIdx item with
    | none => classifyLoop batch heap rest
    | some (idx, reason) =>
      match idxInRange idx batch.length with
      | .error _ => (heap, none)
      | .ok false => classifyLoop batch heap rest
      | .ok true =>
        match idxToNat idx with
        | .error _ => (heap, none)
        | .ok i =>
          let addr := batch.getD i 0
          let d := heap.getD addr []
          let heap' := heap ++ [jinsert "relevance_reason" reason d]
          match classifyLoop batch heap' rest with
          | (h2, none) => (h2, none)
          | (h2, some rel) => (h2, some (heap.length :: rel))

/-- `if not isinstance(results, list): results = [results]`. -/
def wrapResults (j : Json) : List Json :=
  match j with
  | .arr xs => xs
  | x => [x]

/-- `_classify_batch`: provider call, JSON extraction, non-list wrap, result
loop; every handled exception (backend error, parse failure, `TypeError`)
degrades to zero relevant messages. -/
def classify_batch (heap : Heap) (batch : List Nat) (resp : Except Unit String) :
    Heap × List Nat :=
  match resp with
  | .error _ => (heap, [])
  | .ok content =>
    match extractJson content with
    | none => (heap, [])
    | some j =>
      match classifyLoop batch heap (wrapResults j) with
      | (h, none) => (h, [])
      | (h, some rel) => (h, rel)

def CLASSIFICATION_BATCH_SIZE : Nat := 15

/-- The batching loop of `classify_messages`
(`for i in range(0, len(messages), CLASSIFICATION_BATCH_SIZE)`), fuelled by
the message count (each step consumes at least one message).  `resps k` is
the provider's response for the `k`-th batch. -/
def classifyGo (resps : Nat → Except Unit String) :
    Nat → Nat → Heap → List Nat → Heap × List Nat
  | _, _, heap, [] => (heap, [])
  | 0, _, heap, _ => (heap, [])
  | fuel + 1, k, heap, rem =>
    let batch := rem.take CLASSIFICATION_BATCH_SIZE
    let r1 := classify_batch heap batch (resps k)
    let r2 := classifyGo resps fuel (k + 1) r1.1 (rem.drop CLASSIFICATION_BATCH_SIZE)
    (r2.1, r1.2 ++ r2.2)

/-- `classify_messages` over a batch of message addresses. -/
def classify_messages (heap : Heap) (msgs : List Nat)
    (resps : Nat → Except Unit String) : Heap × List Nat :=
  classifyGo resps msgs.length 0 heap msgs

/-! ## Topic grouping (src/ai_analyzer.py lines 476-510) -/

inductive PyErr : Type where
  | caught : PyErr
  | uncaught : PyErr
deriving DecidableEq, Repr

/-- `g.get(k, d)`: `AttributeError` (uncaught by `group_topics`) when `g` is
not a dict. -/
def pyGet (g : Json) (k : String) (d : Json) : Except PyErr Json :=
  match g with
  | .obj kvs => .ok ((jlookup k kvs).getD d)
  | _ => .error .uncaught

/-- `for x in v`: lists yield elements, strings yield 1-character strings,
dicts yield keys; other values raise `TypeError` (caught). -/
def pyIter (v : Json) : Except PyErr (List Json) :=
  match v with
  | .arr xs => .ok xs
  | .str s => .ok (s.toList.map (fun c => .str (String.mk [c])))
  | .obj kvs => .ok (kvs.map (fun kv => .str kv.1))
  | _ => .error .caught

/-- `set.add(v)`: lists and dicts are unhashable (`TypeError`, caught). -/
def pyHashable (v : Json) : Bool :=
  match v with
  | .arr _ => false
  | .obj _ => false
  | _ => true

/-- Python numeric view of a value (`bool` counts as `0`/`1`). -/
def pyNumVal (v : Json) : Option ℚ :=
  match v with
  | .int n => some (n : ℚ)
  | .flt q => some q
  | .bool b => some (if b then 1 else 0)
  | _ => none

/-- Python `==` on the hashable scalars (numbers compare across
`int`/`float`/`bool`). -/
def pyEq (a b : Json) : Bool :=
  match pyNumVal a, pyNumVal b with
  | some x, some y => decide (x = y)
  | _, _ =>
    match a, b with
    | .null, .null => true
    | .str s, .str t => decide (s = t)
    | _, _ => false

/-- The `all_indices` collection loop of `group_topics`:
`for g in groups: for idx in g.get("indices", []): all_indices.add(idx)`. -/
def collectIdx : List Json → Except PyErr (List Json)
  | [] => .ok []
  | g :: gs =>
    match pyGet g "indices" (.arr []) with
    | .error e => .error e
    | .ok v =>
      match pyIter v with
      | .error e => .error e
      | .ok ids =>
        if ids.all pyHashable then
          match collectIdx gs with
          | .error e => .error e
          | .ok rest => .ok (ids ++ rest)
        else .error .caught

/-- One repaired singleton group
`{"group_title": extractions[i].get("title", "Untitled"), "indices": [i]}`. -/
def singletonGroup (extractions : List Json) (i : Nat) : Except PyErr Json :=
  match pyGet (extractions.getD i (.obj [])) "title" (.str "Untitled") with
  | .error e => .error e
  | .ok t => .ok (.obj [("group_title", t), ("indices", .arr [.int (Int.ofNat i)])])

/-- The repair pass: a singleton group for every `i < N` not equal (Python
`==`) to any collected index. -/
def repairList (extractions : List Json) (allIdx : List Json) :
    Except PyErr (List Json) :=
  ((List.range extractions.length).filter
    (fun i : Nat => ¬ allIdx.any (fun e => pyEq e (.int (Int.ofNat i))))).mapM
    (singletonGroup extractions)

/-- The exception-handler fallback
`[{"group_title": ext.get("title", "Untitled"), "indices": [i]} ...]`. -/
def fallbackGroups (extractions : List Json) : Except PyErr (List Json) :=
  (List.range extractions.length).mapM (singletonGroup extractions)

/-- `group_topics` at the level of the provider response: `.error` is an
exception escaping (`AttributeError`/`IndexError`); handled failures
(backend error, parse failure, `TypeError`) produce the fallback singleton
list. -/
def group_topics (extractions : List Json) (resp : Except Unit String) :
    Except PyErr (List Json) :=
  if extractions.length ≤ 1 then
    match extractions with
    | [] => .error .uncaught
    | e :: _ =>
      match pyGet e "title" (.str "Untitled") with
      | .error er => .error er
      | .ok t => .ok [.obj [("group_title", t), ("indices", .arr [.int 0])]]
  else
    match resp with
    | .error _ => fallbackGroups extractions
    | .ok content =>
      match extractJson content with
      | none => fallbackGroups extractions
      | some j =>
        match collectIdx (wrapResults j) with
        | .error .uncaught => .error .uncaught
        | .error .caught => fallbackGroups extractions
        | .ok allIdx =>
          match repairList extractions allIdx with
          | .error .caught => fallbackGroups extractions
          | .error .uncaught => .error .uncaught
          | .ok extra => .ok (wrapResults j ++ extra)

/-! ## Knowledge extraction and incident summary fallbacks
(src/ai_analyzer.py lines 223-229 and 457-474) -/

def FALLBACK_EXTRACTION : Json :=
  .obj [("title", .str "Untitled Article"),
        ("content", .str "Could not extract knowledge from this conversation."),
        ("category", .str "FAQ"),
        ("tags", .arr []),
        ("source_summary", .str "Unable to extract.")]

/-- `extract_knowledge`: one provider call, JSON extraction,
`dict(FALLBACK_EXTRACTION)` on a backend (`RuntimeError`) or parse
(`JSONDecodeError`/`KeyError`) failure.  The prompt built by
`_build_extraction_prompt` is passed abstractly — its content cannot affect
the failure path. -/
def extract_knowledge (complete : String → Except Unit String) (prompt : String) : Json :=
  match complete prompt with
  | .error _ => FALLBACK_EXTRACTION
  | .ok content =>
    match extractJson content with
    | some v => v
    | none => FALLBACK_EXTRACTION

/-- Modelled from the spec: `AIAnalyzer.summarize_incident` is called by
`slack_injury_search.main` (line 264) but has no definition under `src/`;
per spec §3 (IncidentSummary, "Same fallback-on-failure policy") and §8
(fallback title "Untitled Incident", empty/default fields) it makes one
provider call and substitutes the incident fallback record on any backend
or parse failure. -/
def FALLBACK_SUMMARY : Json :=
  .obj [("title", .str "Untitled Incident"),
        ("summary", .str ""),
        ("key_quotes", .arr []),
        ("severity", .str "informational")]

/-- Modelled from the spec: see `FALLBACK_SUMMARY`. -/
def summarize_incident (complete : String → Except Unit String) (prompt : String) : Json :=
  match complete prompt with
  | .error _ => FALLBACK_SUMMARY
  | .ok content =>
    match extractJson content with
    | some v => v
    | none => FALLBACK_SUMMARY

/-- The per-unit extraction loop of `slack_search.main` step 4: one
`extract_knowledge` call per deduplicated unit, every record appended, the
loop never aborted. -/
def extractAll (complete : String → Except Unit String) (prompts : List String) :
    List Json :=
  prompts.map (extract_knowledge complete)

/-! ## Claim theorems -/

/-- C1: if the gateway raises on every `complete` call made for a unit, the
unit's record equals the designated fallback record exactly — title
"Untitled Article" with default fields in KB mode, title "Untitled Incident"
with default fields in report (incident-summary) mode — and the extraction
loop still produces one record per remaining unit instead of aborting. -/
theorem c1_total_backend_failure_fallback
    (complete : String → Except Unit String) (h : ∀ p, complete p = .error ())
    (prompt : String) (prompts : List String) :
    extract_knowledge complete prompt = FALLBACK_EXTRACTION ∧
    summarize_incident complete prompt = FALLBACK_SUMMARY ∧
    extractAll complete prompts = prompts.map (fun _ => FALLBACK_EXTRACTION) := by
  refine ⟨?_, ?_, ?_⟩
  · simp only [extract_knowledge, h prompt]
  · simp only [summarize_incident, h prompt]
  · simp only [extractAll]
    exact List.map_congr_left fun p _ => by simp only [extract_knowledge, h p]

theorem c1_total_backend_failure_fallback_witness :
    extract_knowledge (fun _ => .error ()) "p" = FALLBACK_EXTRACTION ∧
    summarize_incident (fun _ => .error ()) "p" = FALLBACK_SUMMARY ∧
    extractAll (fun _ => .error ()) ["a", "b"]
      = ["a", "b"].map (fun _ => FALLBACK_EXTRACTION) :=
  c1_total_backend_failure_fallback (fun _ => .error ()) (fun _ => rfl) "p" ["a", "b"]

/-- C6 counterexample: the claimed round trip fails for general JSON values.
The scalar `5` extracts from raw text, but surrounded by prose no strategy
recovers it (no code fence, no bracket to scan), so `_extract_json` raises
and the three forms do not agree. -/
theorem c6_counterexample :
    extractJson "5" = some (.int 5) ∧ extractJson "The answer is 5." = none := by
  exact ⟨rfl, rfl⟩

/-- C6 amended: for the array `[{"index":0,"reason":"x"}]` the raw JSON
text, the ```json-fenced wrapping, and bracket-free leading/trailing prose
all extract to the same parsed value, which equals the direct JSON parse;
for scalar values the prose form can fail (see the counterexample). -/
theorem c6_extract_roundtrip :
    extractJson "[\x7b\"index\":0,\"reason\":\"x\"\x7d]"
        = some (.arr [.obj [("index", .int 0), ("reason", .str "x")]]) ∧
    extractJson "```json\n[\x7b\"index\":0,\"reason\":\"x\"\x7d]\n```"
        = some (.arr [.obj [("index", .int 0), ("reason", .str "x")]]) ∧
    extractJson
        "Sure! Here is the list: [\x7b\"index\":0,\"reason\":\"x\"\x7d] Hope that helps."
        = some (.arr [.obj [("index", .int 0), ("reason", .str "x")]]) ∧
    jloads "[\x7b\"index\":0,\"reason\":\"x\"\x7d]"
        = some (.arr [.obj [("index", .int 0), ("reason", .str "x")]]) := by
  exact ⟨rfl, rfl, rfl, rfl⟩

/-- C9: context gathering never returns an empty sequence for a non-empty
cluster: `gather_context` (scrape mode) falls back to the cluster when its
timestamps are absent from the channel list, and the report-mode assembly
falls back to the cluster when all fetches yield nothing. -/
theorem c9_context_nonempty (cluster all fetched : List Msg) (w : Nat)
    (h : cluster ≠ []) :
    gather_context cluster all w ≠ [] ∧ assemble_context cluster fetched ≠ [] := by
  constructor
  · rw [gather_context]
    by_cases h1 : all = [] ∨ cluster = []
    · rwa [if_pos h1]
    · rw [if_neg h1]
      set idxs := (all.enum.filter
        (fun p => p.2.ts ∈ cluster.map Msg.ts)).map Prod.fst with hidxs
      by_cases h2 : idxs = []
      · rwa [if_pos h2]
      · rw [if_neg h2]
        have hbound : ∀ i ∈ idxs, i < all.length := by
          intro i hi
          have hsub : idxs ⊆ all.enum.map Prod.fst := by
            rw [hidxs]
            exact List.map_subset Prod.fst (List.filter_sublist _).subset
          have := hsub hi
          rw [List.enum_map_fst] at this
          exact List.mem_range.mp this
        obtain ⟨lo, hlo⟩ := Option.ne_none_iff_exists'.mp
          (mt List.min?_eq_none_iff.mp h2)
        obtain ⟨hi', hhi⟩ := Option.ne_none_iff_exists'.mp
          (mt List.max?_eq_none_iff.mp h2)
        have hlomem : lo ∈ idxs := List.min?_mem (fun a b => min_choice a b) hlo
        have hhimem : hi' ∈ idxs := List.max?_mem (fun a b => max_choice a b) hhi
        have hlohi : lo ≤ hi' :=
          (List.max?_le_iff (fun a b c => Nat.max_le) hhi).mp le_rfl lo hlomem
        rw [hlo, hhi]
        simp only [Option.getD_some]
        intro hcon
        have hlen := congrArg List.length hcon
        rw [List.length_take, List.length_drop, List.length_nil] at hlen
        have hlolen : lo < all.length := hbound lo hlomem
        omega
  · rw [assemble_context]
    by_cases h2 : sortByTs (tsDictValues fetched) = []
    · rwa [if_pos h2]
    · rw [if_neg h2]
      exact h2

def msgW : Msg := { ts := 1 }

theorem c9_context_nonempty_witness :
    gather_context [msgW] [] 15 ≠ [] ∧ assemble_context [msgW] [] ≠ [] :=
  c9_context_nonempty [msgW] [] [] 15 (by simp)

/-- C4: `dedup_by_context_overlap` is idempotent — a second run on its own
output performs no merges and returns it unchanged. -/
theorem c4_dedup_idempotent (units : List CUnit) (thr : ℚ) :
    dedup_by_context_overlap (dedup_by_context_overlap units thr) thr
      = dedup_by_context_overlap units thr := by
  by_cases h2 : (dedup_by_context_overlap units thr).length ≤ 1
  · rw [dedup_by_context_overlap, if_pos h2]
  · have h1 : ¬ units.length ≤ 1 := by
      intro hle
      rw [dedup_by_context_overlap, if_pos hle] at h2
      exact h2 hle
    rw [dedup_by_context_overlap, if_neg h2]
    rw [dedup_by_context_overlap, if_neg h1]
    set s := List.insertionSort dateRel units with hs
    set r := fixBy (overlapCond thr) mergeUnits s with hr
    have hsorted_s : s.Pairwise dateRel := List.sorted_insertionSort dateRel units
    have hRl : ∀ x y z : CUnit, dateRel x z → dateRel (mergeUnits x y) z :=
      fun _ _ _ h => h
    have hRr : ∀ x y z : CUnit, dateRel z x → dateRel z (mergeUnits x y) :=
      fun _ _ _ h => h
    have hsorted_r : r.Pairwise dateRel := by
      rw [hr, fixBy]
      exact fixGo_pairwise _ _ hRl hRr _ s hsorted_s
    rw [List.Sorted.insertionSort_eq hsorted_r]
    exact fixBy_of_no_merge _ _ r (fixBy_fixpoint (overlapCond thr) mergeUnits s)

/-- A two-element list with a matching pair collapses to the merge. -/
theorem fixBy_pair_merge (cond : α → α → Bool) (mrg : α → α → α) (x y : α)
    (h : cond x y = true) : fixBy cond mrg [x, y] = [mrg x y] := by
  simp [fixBy, fixGo, onePass, passGo, absorbBy, h]

/-- C5 counterexample: two units with identical (empty) context-timestamp
sets are NOT merged at threshold 0.4 — the `smaller > 0` guard blocks the
merge, so the claim fails as stated. -/
def cuA : CUnit := { date := "2024-01-01" }

def cuB : CUnit := { date := "2024-01-02" }

theorem c5_counterexample :
    cuA.context_ts_set = cuB.context_ts_set ∧
    (dedup_by_context_overlap [cuA, cuB] (mkRat 2 5)).length = 2 := by
  exact ⟨rfl, rfl⟩

/-- C5 amended: two units with identical NON-EMPTY context-timestamp sets
always merge into one at threshold 0.4 (= `mkRat 2 5`); with empty sets the
`smaller > 0` guard prevents the merge (see the counterexample). -/
theorem c5_identical_nonempty_merge (a b : CUnit)
    (hset : a.context_ts_set = b.context_ts_set)
    (hne : a.context_ts_set.Nonempty) :
    (dedup_by_context_overlap [a, b] (mkRat 2 5)).length = 1 := by
  have hcond : ∀ x y : CUnit, x.context_ts_set = y.context_ts_set →
      x.context_ts_set.Nonempty → overlapCond (mkRat 2 5) x y = true := by
    intro x y hxy hx
    rw [overlapCond]
    simp only [← hxy, Finset.inter_self, min_self]
    have hpos : 0 < x.context_ts_set.card := Finset.card_pos.mpr hx
    rw [Bool.and_eq_true, decide_eq_true_eq, decide_eq_true_eq]
    refine ⟨hpos, ?_⟩
    rw [qdiv_eq, div_self (Nat.cast_ne_zero.mpr (Nat.pos_iff_ne_zero.mp hpos)),
      Rat.mkRat_eq_div]
    norm_num
  rw [dedup_by_context_overlap, if_neg (by simp)]
  by_cases hd : dateRel a b
  · rw [show List.insertionSort dateRel [a, b] = [a, b] by
      simp [List.insertionSort, List.orderedInsert, hd]]
    rw [fixBy_pair_merge _ _ _ _ (hcond a b hset hne)]
    rfl
  · rw [show List.insertionSort dateRel [a, b] = [b, a] by
      simp [List.insertionSort, List.orderedInsert, hd]]
    rw [fixBy_pair_merge _ _ _ _ (hcond b a hset.symm (hset ▸ hne))]
    rfl

def cuC : CUnit := { context_ts_set := {1}, date := "2024-01-01" }

def cuD : CUnit := { context_ts_set := {1}, date := "2024-01-02" }

theorem c5_identical_nonempty_merge_witness :
    (dedup_by_context_overlap [cuC, cuD] (mkRat 2 5)).length = 1 :=
  c5_identical_nonempty_merge cuC cuD rfl (by decide)

def msgT1 : Msg := { ts := 0, thread_ts := some "0" }

def msgT2 : Msg := { ts := 100000, thread_ts := some "0" }

/-- C2 counterexample: with `gap_hours = 1` the thread-merge clusterer
returns the single cluster `[msgT1, msgT2]` whose adjacent messages are
100000 s apart, far above `gap_seconds = 3600` — the gap invariant does not
hold for the variant that merges clusters sharing a `thread_ts`. -/
theorem c2_counterexample :
    ¬ ∀ c ∈ cluster_messages_threaded [msgT1, msgT2] 1,
        c.Chain' (fun a b : Msg => b.ts - a.ts ≤ 1 * 3600) := by
  intro h
  have hmem : [msgT1, msgT2] ∈ cluster_messages_threaded [msgT1, msgT2] 1 := by
    rw [show cluster_messages_threaded [msgT1, msgT2] 1 = [[msgT1, msgT2]] from rfl]
    exact List.mem_singleton_self _
  have hch := h _ hmem
  rw [List.chain'_cons] at hch
  have hle : msgT2.ts - msgT1.ts ≤ 1 * 3600 := hch.1
  rw [show msgT2.ts = 100000 from rfl, show msgT1.ts = 0 from rfl] at hle
  norm_num at hle

/-- C2 amended: for the time-gap clusterer (`slack_search.cluster_messages`)
every two timestamp-adjacent messages within a returned cluster are at most
`gap_hours * 3600` seconds apart; the thread-merge variant can exceed the
bound exactly on clusters joined through a shared `thread_ts` (see the
counterexample). -/
theorem c2_gap_invariant (messages : List Msg) (gap_hours : ℚ) :
    ∀ c ∈ cluster_messages messages gap_hours,
      c.Chain' (fun a b : Msg => b.ts - a.ts ≤ gap_hours * 3600) := by
  intro c hc
  rw [cluster_messages] at hc
  rcases hsort : List.insertionSort tsLe messages with _ | ⟨m0, rest⟩
  · rw [hsort] at hc
    simp at hc
  · rw [hsort] at hc
    have h := clusterGo_chain (qmul gap_hours 3600) [] [] m0 rest (by simp) (by simp) c hc
    rwa [qmul_eq] at h

theorem c2_gap_invariant_witness :
    List.Chain' (fun a b : Msg => b.ts - a.ts ≤ (1 : ℚ) * 3600) [msgT1] := by
  apply c2_gap_invariant [msgT1] 1
  rw [show cluster_messages [msgT1] 1 = [[msgT1]] from rfl]
  exact List.mem_singleton_self _

/-- C7: both clusterer variants partition the input exactly — the
concatenation of the returned clusters is a permutation of the input list —
and every returned cluster is internally sorted ascending by timestamp. -/
theorem c7_partition_sorted (messages : List Msg) (gap_hours : ℚ) :
    ((cluster_messages messages gap_hours).join.Perm messages ∧
      ∀ c ∈ cluster_messages messages gap_hours, c.Sorted tsLe) ∧
    ((cluster_messages_threaded messages gap_hours).join.Perm messages ∧
      ∀ c ∈ cluster_messages_threaded messages gap_hours, c.Sorted tsLe) := by
  have hperm : (List.insertionSort tsLe messages).Perm messages :=
    List.perm_insertionSort tsLe messages
  have hsorted : (List.insertionSort tsLe messages).Sorted tsLe :=
    List.sorted_insertionSort tsLe messages
  have hplain : (cluster_messages messages gap_hours).join.Perm messages := by
    rw [cluster_messages]
    rcases hsort : List.insertionSort tsLe messages with _ | ⟨m0, rest⟩
    · rw [hsort] at hperm
      rw [hperm.symm.eq_nil]
      simp
    · rw [clusterGo_join]
      rw [hsort] at hperm
      simpa using hperm
  have hplainsorted : ∀ c ∈ cluster_messages messages gap_hours, c.Sorted tsLe := by
    intro c hc
    rw [cluster_messages] at hc
    rcases hsort : List.insertionSort tsLe messages with _ | ⟨m0, rest⟩
    · rw [hsort] at hc
      simp at hc
    · rw [hsort] at hc
      refine clusterGo_sorted _ [] [] m0 rest (by simp) ?_ c hc
      rw [hsort] at hsorted
      simpa using hsorted
  refine ⟨⟨hplain, hplainsorted⟩, ?_, ?_⟩
  · rw [cluster_messages_threaded]
    exact (join_map_perm _ (fun c => List.perm_insertionSort tsLe c) _).trans
      ((fixBy_join_perm threadCond _).trans hplain)
  · intro c hc
    rw [cluster_messages_threaded] at hc
    obtain ⟨c', _, rfl⟩ := List.mem_map.mp hc
    exact List.sorted_insertionSort tsLe c'

theorem c7_partition_sorted_witness :
    (cluster_messages [msgW] 4).join.Perm [msgW] ∧ List.Sorted tsLe [msgW] := by
  refine ⟨(c7_partition_sorted [msgW] 4).1.1, ?_⟩
  apply (c7_partition_sorted [msgW] 4).1.2
  rw [show cluster_messages [msgW] 4 = [[msgW]] from rfl]
  exact List.mem_singleton_self _

/-- C8: an integer index outside `[0, len(batch))` in the model's parsed
classification response is dropped silently — removing the item from the
response leaves the result of `_classify_batch`'s processing loop (final
heap and relevant list) unchanged, so the index never raises and never
contributes a message. -/
theorem c8_out_of_range_dropped (batch : List Nat) (heap : Heap)
    (pre post : List Json) (item : Json) (n : Int) (reason : Json)
    (hidx : itemIdx item = some (.int n, reason))
    (hn : ¬ (0 ≤ n ∧ n < (batch.length : Int))) :
    classifyLoop batch heap (pre ++ item :: post)
      = classifyLoop batch heap (pre ++ post) := by
  induction pre generalizing heap with
  | nil =>
    simp only [List.nil_append, classifyLoop, hidx]
    have hr : idxInRange (.int n) batch.length = .ok false := by
      simp only [idxInRange]
      rw [decide_eq_false hn]
    rw [hr]
  | cons p pre ih =>
    simp only [List.cons_append, classifyLoop]
    split
    · exact ih heap
    · split
      · rfl
      · exact ih heap
      · split
        · rfl
        · simp only [List.append_eq]
          rw [ih]

theorem c8_out_of_range_dropped_witness :
    classifyLoop [0] [[("ts", Json.int 1)]] ([] ++ Json.int 5 :: [])
      = classifyLoop [0] [[("ts", Json.int 1)]] ([] ++ []) :=
  c8_out_of_range_dropped [0] [[("ts", Json.int 1)]] [] [] (.int 5) 5 (.str "")
    rfl (by decide)

/-! ## Frame properties of classification -/

theorem idx_lt_of_range_toNat {idx : Json} {n : Nat} {i : Nat}
    (h1 : idxInRange idx n = .ok true) (h2 : idxToNat idx = .ok i) : i < n := by
  cases idx with
  | int v =>
    simp only [idxInRange, Except.ok.injEq, decide_eq_true_eq] at h1
    simp only [idxToNat, Except.ok.injEq] at h2
    omega
  | bool b =>
    simp only [idxInRange, Except.ok.injEq, decide_eq_true_eq] at h1
    simp only [idxToNat, Except.ok.injEq] at h2
    cases b <;> simp_all
  | flt q => simp [idxToNat] at h2
  | null => simp [idxInRange] at h1
  | str s => simp [idxInRange] at h1
  | arr xs => simp [idxInRange] at h1
  | obj kvs => simp [idxInRange] at h1

/-- The frame lemma for the classification result loop: the heap only ever
grows by allocation, and every returned address is a fresh cell holding
`jinsert "relevance_reason" reason` of some batch message's dict. -/
theorem classifyLoop_frame (batch : List Nat) (items : List Json) (heap : Heap)
    (hb : ∀ a ∈ batch, a < heap.length) :
    (∃ ext, (classifyLoop batch heap items).1 = heap ++ ext) ∧
    (∀ rel, (classifyLoop batch heap items).2 = some rel →
      ∀ r ∈ rel, (heap.length ≤ r ∧ r < (classifyLoop batch heap items).1.length) ∧
        ∃ a ∈ batch, ∃ reason,
          (classifyLoop batch heap items).1.getD r []
            = jinsert "relevance_reason" reason (heap.getD a [])) := by
  induction items generalizing heap with
  | nil =>
    refine ⟨⟨[], by simp [classifyLoop]⟩, ?_⟩
    intro rel hrel r hr
    simp only [classifyLoop, Option.some.injEq] at hrel
    rw [← hrel] at hr
    simp at hr
  | cons item rest ih =>
    rcases hidx : itemIdx item with _ | ⟨idx, reason⟩
    · have hstep : classifyLoop batch heap (item :: rest) = classifyLoop batch heap rest := by
        simp only [classifyLoop, hidx]
      rw [hstep]
      exact ih heap hb
    · rcases hrange : idxInRange idx batch.length with e | b
      · have hstep : classifyLoop batch heap (item :: rest) = (heap, none) := by
          simp only [classifyLoop, hidx, hrange]
        rw [hstep]
        exact ⟨⟨[], by simp⟩, by intro rel hrel; cases hrel⟩
      · cases b
        · have hstep : classifyLoop batch heap (item :: rest)
              = classifyLoop batch heap rest := by
            simp only [classifyLoop, hidx, hrange]
          rw [hstep]
          exact ih heap hb
        · rcases hnat : idxToNat idx with e | i
          · have hstep : classifyLoop batch heap (item :: rest) = (heap, none) := by
              simp only [classifyLoop, hidx, hrange, hnat]
            rw [hstep]
            exact ⟨⟨[], by simp⟩, by intro rel hrel; cases hrel⟩
          · have hi : i < batch.length := idx_lt_of_range_toNat hrange hnat
            have haddr : batch.getD i 0 ∈ batch := by
              rw [List.getD_eq_getElem batch 0 hi]
              exact List.getElem_mem hi
            have haddrlt : batch.getD i 0 < heap.length := hb _ haddr
            have hih := ih
              (heap ++ [jinsert "relevance_reason" reason
                (heap.getD (batch.getD i 0) [])])
              (fun a ha => lt_of_lt_of_le (hb a ha) (by simp))
            rcases hrec : classifyLoop batch
                (heap ++ [jinsert "relevance_reason" reason
                  (heap.getD (batch.getD i 0) [])]) rest with ⟨h2, rel?⟩
            rw [hrec] at hih
            cases rel? with
            | none =>
              have hstep : classifyLoop batch heap (item :: rest) = (h2, none) := by
                simp only [classifyLoop, hidx, hrange, hnat, hrec]
              rw [hstep]
              refine ⟨?_, by intro rel hrel; cases hrel⟩
              obtain ⟨ext, hext⟩ := hih.1
              exact ⟨_, by rw [hext, List.append_assoc]⟩
            | some rel0 =>
              have hstep : classifyLoop batch heap (item :: rest)
                  = (h2, some (heap.length :: rel0)) := by
                simp only [classifyLoop, hidx, hrange, hnat, hrec]
              rw [hstep]
              obtain ⟨⟨ext, hext⟩, hmem⟩ := hih
              refine ⟨⟨_, by rw [hext, List.append_assoc]⟩, ?_⟩
              intro rel hrel r hr
              obtain rfl : heap.length :: rel0 = rel := by
                simpa using hrel
              rcases List.mem_cons.mp hr with rfl | hr0
              · refine ⟨⟨le_rfl, ?_⟩, batch.getD i 0, haddr, reason, ?_⟩
                · rw [hext]
                  simp only [List.length_append, List.length_cons, List.length_nil]
                  omega
                · rw [hext, List.append_assoc,
                    List.getD_append_right heap _ [] heap.length le_rfl]
                  simp
              · have h3 := hmem rel0 rfl r hr0
                refine ⟨⟨?_, h3.1.2⟩, ?_⟩
                · calc heap.length ≤ heap.length + 1 := Nat.le_succ _
                    _ = (heap ++ [jinsert "relevance_reason" reason
                        (heap.getD (batch.getD i 0) [])]).length := by simp
                    _ ≤ r := h3.1.1
                · obtain ⟨a, ha, reason', hread⟩ := h3.2
                  refine ⟨a, ha, reason', ?_⟩
                  rwa [List.getD_append heap _ [] a (hb a ha)] at hread

/-- Frame lemma at the `_classify_batch` level. -/
theorem classify_batch_frame (heap : Heap) (batch : List Nat)
    (resp : Except Unit String) (hb : ∀ a ∈ batch, a < heap.length) :
    (∃ ext, (classify_batch heap batch resp).1 = heap ++ ext) ∧
    (∀ r ∈ (classify_batch heap batch resp).2,
      (heap.length ≤ r ∧ r < (classify_batch heap batch resp).1.length) ∧
      ∃ a ∈ batch, ∃ reason,
        (classify_batch heap batch resp).1.getD r []
          = jinsert "relevance_reason" reason (heap.getD a [])) := by
  rcases resp with e | content
  · exact ⟨⟨[], by simp [classify_batch]⟩, by simp [classify_batch]⟩
  · rcases hx : extractJson content with _ | j
    · have hstep : classify_batch heap batch (.ok content) = (heap, []) := by
        simp only [classify_batch, hx]
      rw [hstep]
      exact ⟨⟨[], by simp⟩, by simp⟩
    · have hfr := classifyLoop_frame batch (wrapResults j) heap hb
      rcases hloop : classifyLoop batch heap (wrapResults j) with ⟨h2, rel?⟩
      rw [hloop] at hfr
      cases rel? with
      | none =>
        have hstep : classify_batch heap batch (.ok content) = (h2, []) := by
          simp only [classify_batch, hx, hloop]
        rw [hstep]
        exact ⟨hfr.1, by simp⟩
      | some rel =>
        have hstep : classify_batch heap batch (.ok content) = (h2, rel) := by
          simp only [classify_batch, hx, hloop]
        rw [hstep]
        exact ⟨hfr.1, hfr.2 rel rfl⟩

/-- Frame lemma for the batching loop. -/
theorem classifyGo_frame (resps : Nat → Except Unit String) (fuel : Nat) :
    ∀ (k : Nat) (heap : Heap) (rem : List Nat),
    (∀ a ∈ rem, a < heap.length) →
    (∃ ext, (classifyGo resps fuel k heap rem).1 = heap ++ ext) ∧
    (∀ r ∈ (classifyGo resps fuel k heap rem).2,
      (heap.length ≤ r ∧ r < (classifyGo resps fuel k heap rem).1.length) ∧
      ∃ a ∈ rem, ∃ reason,
        (classifyGo resps fuel k heap rem).1.getD r []
          = jinsert "relevance_reason" reason (heap.getD a [])) := by
  induction fuel with
  | zero =>
    intro k heap rem _
    cases rem with
    | nil => exact ⟨⟨[], by simp [classifyGo]⟩, by simp [classifyGo]⟩
    | cons x rest => exact ⟨⟨[], by simp [classifyGo]⟩, by simp [classifyGo]⟩
  | succ fuel ih =>
    intro k heap rem hb
    cases rem with
    | nil => exact ⟨⟨[], by simp [classifyGo]⟩, by simp [classifyGo]⟩
    | cons x rest =>
      have hbatch : ∀ a ∈ (x :: rest).take CLASSIFICATION_BATCH_SIZE,
          a < heap.length := fun a ha => hb a (List.take_subset _ _ ha)
      obtain ⟨⟨e1, he1⟩, hm1⟩ := classify_batch_frame heap
        ((x :: rest).take CLASSIFICATION_BATCH_SIZE) (resps k) hbatch
      have hlen1 : heap.length ≤ (classify_batch heap
          ((x :: rest).take CLASSIFICATION_BATCH_SIZE) (resps k)).1.length := by
        rw [he1]
        simp
      have hb2 : ∀ a ∈ (x :: rest).drop CLASSIFICATION_BATCH_SIZE,
          a < (classify_batch heap
            ((x :: rest).take CLASSIFICATION_BATCH_SIZE) (resps k)).1.length :=
        fun a ha => lt_of_lt_of_le (hb a (List.drop_subset _ _ ha)) hlen1
      obtain ⟨⟨e2, he2⟩, hm2⟩ := ih (k + 1)
        (classify_batch heap ((x :: rest).take CLASSIFICATION_BATCH_SIZE) (resps k)).1
        ((x :: rest).drop CLASSIFICATION_BATCH_SIZE) hb2
      have hstep : classifyGo resps (fuel + 1) k heap (x :: rest)
          = ((classifyGo resps fuel (k + 1)
              (classify_batch heap ((x :: rest).take CLASSIFICATION_BATCH_SIZE)
                (resps k)).1
              ((x :: rest).drop CLASSIFICATION_BATCH_SIZE)).1,
             (classify_batch heap ((x :: rest).take CLASSIFICATION_BATCH_SIZE)
               (resps k)).2
               ++ (classifyGo resps fuel (k + 1)
                 (classify_batch heap ((x :: rest).take CLASSIFICATION_BATCH_SIZE)
                   (resps k)).1
                 ((x :: rest).drop CLASSIFICATION_BATCH_SIZE)).2) := by
        simp only [classifyGo]
      rw [hstep]
      refine ⟨⟨e1 ++ e2, by rw [he2, he1, List.append_assoc]⟩, ?_⟩
      intro r hr
      rcases List.mem_append.mp hr with hr1 | hr2
      · obtain ⟨⟨hge, hlt⟩, a, ha, reason, hread⟩ := hm1 r hr1
        refine ⟨⟨hge, ?_⟩, a, List.take_subset _ _ ha, reason, ?_⟩
        · rw [he2]
          simp only [List.length_append]
          omega
        · rw [he2, List.getD_append _ _ [] r hlt]
          exact hread
      · obtain ⟨⟨hge, hlt⟩, a, ha, reason, hread⟩ := hm2 r hr2
        refine ⟨⟨le_trans hlen1 hge, hlt⟩, a, List.drop_subset _ _ ha, reason, ?_⟩
        have hh : (classify_batch heap ((x :: rest).take CLASSIFICATION_BATCH_SIZE)
            (resps k)).1.getD a [] = heap.getD a [] := by
          rw [he1]
          exact List.getD_append _ _ [] a (hb a (List.drop_subset _ _ ha))
        rw [hh] at hread
        exact hread

/-- C10: classification never mutates its input.  Heap model: the final heap
extends the initial heap (so every pre-existing message dict — in particular
at every input address — is unchanged and gains no `relevance_reason` key),
and every returned relevant message is a freshly allocated copy of some
input message dict with `relevance_reason` set. -/
theorem c10_classify_no_mutation (heap : Heap) (msgs : List Nat)
    (resps : Nat → Except Unit String) (hvalid : ∀ a ∈ msgs, a < heap.length) :
    ((classify_messages heap msgs resps).1.take heap.length = heap) ∧
    (∀ r ∈ (classify_messages heap msgs resps).2,
      heap.length ≤ r ∧
      ∃ a ∈ msgs, ∃ reason,
        (classify_messages heap msgs resps).1.getD r []
          = jinsert "relevance_reason" reason (heap.getD a [])) := by
  obtain ⟨⟨ext, hext⟩, hmem⟩ :=
    classifyGo_frame resps msgs.length 0 heap msgs hvalid
  constructor
  · rw [show classify_messages heap msgs resps
        = classifyGo resps msgs.length 0 heap msgs from rfl, hext, List.take_left]
  · intro r hr
    obtain ⟨⟨hge, _⟩, a, ha, reason, hread⟩ := hmem r hr
    exact ⟨hge, a, ha, reason, hread⟩

theorem c10_classify_no_mutation_witness :
    ((classify_messages [[("ts", Json.int 1)]] [0] (fun _ => .error ())).1.take
        ([[("ts", Json.int 1)]] : Heap).length = [[("ts", Json.int 1)]]) ∧
    (∀ r ∈ (classify_messages [[("ts", Json.int 1)]] [0] (fun _ => .error ())).2,
      ([[("ts", Json.int 1)]] : Heap).length ≤ r ∧
      ∃ a ∈ [0], ∃ reason,
        (classify_messages [[("ts", Json.int 1)]] [0] (fun _ => .error ())).1.getD r []
          = jinsert "relevance_reason" reason
              (([[("ts", Json.int 1)]] : Heap).getD a [])) :=
  c10_classify_no_mutation [[("ts", Json.int 1)]] [0] (fun _ => .error ())
    (by simp)

/-! ## C3: grouping coverage -/

/-- The indices a group contributes (the pure view of the iterated
`g.get("indices", [])`). -/
def groupIndicesList (g : Json) : List Json :=
  match g with
  | .obj kvs =>
    match (jlookup "indices" kvs).getD (.arr []) with
    | .arr ids => ids
    | .str s => s.toList.map (fun c => .str (String.mk [c]))
    | .obj kv => kv.map (fun kv => .str kv.1)
    | _ => []
  | _ => []

/-- Group `g` covers extraction index `i`: some element of its indices is
Python-`==` to `i`. -/
def coversIdx (g : Json) (i : Nat) : Bool :=
  (groupIndicesList g).any (fun e => pyEq e (.int (Int.ofNat i)))

def extA : Json := .obj [("title", .str "A")]

def extB : Json := .obj [("title", .str "B")]

def c3resp : String :=
  "[\x7b\"group_title\":\"G1\",\"indices\":[0,1]\x7d,\x7b\"group_title\":\"G2\",\"indices\":[0]\x7d]"

def c3g1 : Json := .obj [("group_title", .str "G1"), ("indices", .arr [.int 0, .int 1])]

def c3g2 : Json := .obj [("group_title", .str "G2"), ("indices", .arr [.int 0])]

/-- C3 counterexample: the repair pass only adds missing indices, it never
removes duplicates: for N = 2 and the model response
`[{"group_title":"G1","indices":[0,1]}, {"group_title":"G2","indices":[0]}]`
the returned list places index 0 in BOTH groups, so "no index appears in
more than one group" fails as stated. -/
theorem c3_counterexample :
    group_topics [extA, extB] (.ok c3resp) = .ok [c3g1, c3g2] ∧
    coversIdx c3g1 0 = true ∧ coversIdx c3g2 0 = true := by
  exact ⟨rfl, rfl, rfl⟩

theorem pyEq_int_refl (i : Nat) :
    pyEq (.int (Int.ofNat i)) (.int (Int.ofNat i)) = true := by
  simp [pyEq, pyNumVal]

theorem mapM_singleton_covers (extractions : List Json) (idxs : List Nat)
    (gs : List Json) (h : idxs.mapM (singletonGroup extractions) = .ok gs) :
    ∀ i ∈ idxs, ∃ g ∈ gs, coversIdx g i = true := by
  induction idxs generalizing gs with
  | nil => simp
  | cons i rest ih =>
    rw [List.mapM_cons] at h
    rcases hf : singletonGroup extractions i with e | g
    · rw [hf] at h
      cases h
    · rw [hf] at h
      rcases hrest : rest.mapM (singletonGroup extractions) with e | gs'
      · rw [hrest] at h
        cases h
      · rw [hrest] at h
        have hgs : gs = g :: gs' := by
          have h' : (Except.ok (g :: gs') : Except PyErr (List Json)) = .ok gs := h
          exact (Except.ok.inj h').symm
        subst hgs
        intro i' hi'
        rcases List.mem_cons.mp hi' with rfl | hmem
        · refine ⟨g, List.mem_cons_self _ _, ?_⟩
          rcases ht : pyGet (extractions.getD i' (.obj [])) "title" (.str "Untitled")
            with e | t
          · simp only [singletonGroup, ht] at hf
            exact Except.noConfusion hf
          · simp only [singletonGroup, ht, Except.ok.injEq] at hf
            rw [← hf]
            rw [coversIdx, show groupIndicesList (.obj [("group_title", t),
                ("indices", .arr [.int (Int.ofNat i')])]) = [.int (Int.ofNat i')]
              from rfl]
            simp only [List.any_cons, List.any_nil, Bool.or_false]
            exact pyEq_int_refl i'
        · obtain ⟨g0, hg0, hc0⟩ := ih gs' hrest i' hmem
          exact ⟨g0, List.mem_cons_of_mem _ hg0, hc0⟩

theorem groupIndicesList_of_iter {g v : Json} {ids : List Json}
    (hg : pyGet g "indices" (.arr []) = .ok v) (hit : pyIter v = .ok ids) :
    groupIndicesList g = ids := by
  rcases g with _ | b | n | q | s | xs | kvs <;> simp [pyGet] at hg
  have hv : (jlookup "indices" kvs).getD (.arr []) = v := hg
  rcases v with _ | b | n | q | s | xs | kv <;> simp [pyIter] at hit <;>
    simp [groupIndicesList, hv, ← hit]

theorem collectIdx_mem (groups : List Json) (allIdx : List Json)
    (h : collectIdx groups = .ok allIdx) :
    ∀ e ∈ allIdx, ∃ g ∈ groups, e ∈ groupIndicesList g := by
  induction groups generalizing allIdx with
  | nil =>
    have h' : ([] : List Json) = allIdx := Except.ok.inj h
    rw [← h']
    simp
  | cons g gs ih =>
    rcases hg : pyGet g "indices" (.arr []) with e | v
    · simp only [collectIdx, hg] at h
      exact Except.noConfusion h
    · rcases hit : pyIter v with e | ids
      · simp only [collectIdx, hg, hit] at h
        exact Except.noConfusion h
      · by_cases hh : ids.all pyHashable
        · rcases hrest : collectIdx gs with e | rest
          · simp only [collectIdx, hg, hit, if_pos hh, hrest] at h
            exact Except.noConfusion h
          · simp only [collectIdx, hg, hit, if_pos hh, hrest,
              Except.ok.injEq] at h
            intro e he
            rw [← h] at he
            rcases List.mem_append.mp he with he | he
            · exact ⟨g, List.mem_cons_self _ _,
                (groupIndicesList_of_iter hg hit) ▸ he⟩
            · obtain ⟨g0, hg0, hmem⟩ := ih rest hrest e he
              exact ⟨g0, List.mem_cons_of_mem _ hg0, hmem⟩
        · simp only [collectIdx, hg, hit, if_neg hh] at h
          exact Except.noConfusion h

/-- C3 amended: whenever `group_topics` returns a group list (no uncaught
exception), every extraction index `0..N-1` appears in AT LEAST one returned
group — the repair pass guarantees coverage but does not remove duplicates,
so an index may appear in several groups (see the counterexample). -/
theorem c3_repair_covers (extractions : List Json) (resp : Except Unit String)
    (gs : List Json) (h2 : 2 ≤ extractions.length)
    (hok : group_topics extractions resp = .ok gs) :
    ∀ i < extractions.length, ∃ g ∈ gs, coversIdx g i = true := by
  intro i hi
  rw [group_topics.eq_def, if_neg (by omega)] at hok
  split at hok
  · exact mapM_singleton_covers extractions _ gs hok i (List.mem_range.mpr hi)
  · split at hok
    · exact mapM_singleton_covers extractions _ gs hok i (List.mem_range.mpr hi)
    · next j hx =>
      split at hok
      · exact Except.noConfusion hok
      · exact mapM_singleton_covers extractions _ gs hok i (List.mem_range.mpr hi)
      · next allIdx hcollect =>
        split at hok
        · exact mapM_singleton_covers extractions _ gs hok i (List.mem_range.mpr hi)
        · exact Except.noConfusion hok
        · next extra hrepair =>
          have hgs : wrapResults j ++ extra = gs := Except.ok.inj hok
          by_cases hcov : (allIdx.any (fun e => pyEq e (.int (Int.ofNat i)))) = true
          · obtain ⟨e0, he0, hpe⟩ := List.any_eq_true.mp hcov
            obtain ⟨g, hg, hmemg⟩ := collectIdx_mem (wrapResults j) allIdx hcollect e0 he0
            refine ⟨g, ?_, ?_⟩
            · rw [← hgs]
              exact List.mem_append_left _ hg
            · exact List.any_eq_true.mpr ⟨e0, hmemg, hpe⟩
          · have hfilter : i ∈ (List.range extractions.length).filter
                (fun i : Nat => ¬ allIdx.any (fun e => pyEq e (.int (Int.ofNat i)))) := by
              rw [List.mem_filter]
              refine ⟨List.mem_range.mpr hi, ?_⟩
              simpa using hcov
            obtain ⟨g, hg, hcov'⟩ :=
              mapM_singleton_covers extractions _ extra hrepair i hfilter
            refine ⟨g, ?_, hcov'⟩
            rw [← hgs]
            exact List.mem_append_right _ hg

theorem c3_repair_covers_witness :
    ∃ g ∈ [c3g1, c3g2], coversIdx g 1 = true :=
  c3_repair_covers [extA, extB] (.ok c3resp) [c3g1, c3g2] (by decide) rfl 1
    (by decide)
